import Mathlib

/-!
# Verification of `Polynomial` (secret-sharing polynomial arithmetic)

Shallow embedding of `src/polynomial.rs`: a polynomial is its coefficient
list (lowest degree first) over a field `F`; `eval` mirrors the Rust
evaluation (special-case at zero, otherwise Horner's loop over descending
indices), and `lagrange_basis_at_0` mirrors the numerator/denominator
accumulator loop over an enumeration of the x-coordinate set.

Rust `usize` subtraction panics on underflow; `eval` therefore returns
`Option F`, with `none` modelling a panic (the `self.0.len()-2` bound
underflows when the coefficient list has fewer than two entries and `x`
is non-zero, and indexing `[0]` fails on an empty list).
-/

namespace SecretSharing

variable {F : Type} [Field F] [DecidableEq F]

/-- Modelled from the spec: `FieldElementVector::random(n)` is an external
collaborator (the field-element library) that uniformly samples a vector of
`n` field elements.  We model the entropy source as an oracle `rng` and keep
the contract the spec states: the result has exactly `n` entries. -/
def fieldElementVectorRandom (rng : ℕ → F) (n : ℕ) : List F :=
  (List.range n).map rng

/-- Embeds `Polynomial::random`: `Self(FieldElementVector::random(degree + 1))`. -/
def random (rng : ℕ → F) (degree : ℕ) : List F :=
  fieldElementVectorRandom rng (degree + 1)

/-- Embeds `Polynomial::degree`: `self.0.len() - 1` (the invariant guarantees a
non-empty coefficient list, so the `usize` subtraction does not underflow). -/
def degree (coeffs : List F) : ℕ :=
  coeffs.length - 1

/-- Embeds `Polynomial::coefficients`: the coefficient vector itself. -/
def coefficients (coeffs : List F) : List F :=
  coeffs

/-- Embeds `Polynomial::eval`.  `none` models a panic:
* `x = 0` branch: `self.coefficients()[0]` fails iff the list is empty;
* otherwise the loop bound `self.0.len()-2` underflows (and with wrap-around
  the first index is out of bounds) whenever `self.0.len() < 2`;
* otherwise `res` starts at the leading coefficient `self.0[len-1]` and the
  loop runs `res = res * x + self.0[i]` for `i` in `(0..=len-2).rev()`. -/
def eval (coeffs : List F) (x : F) : Option F :=
  if x = 0 then
    coeffs[0]?
  else if coeffs.length < 2 then
    none
  else
    some (((List.range (coeffs.length - 1)).reverse).foldl
      (fun res i => res * x + coeffs.getD i 0)
      (coeffs.getD (coeffs.length - 1) 0))

/-- One iteration of the loop body of `Polynomial::lagrange_basis_at_0`:
skip `x == i`, otherwise multiply the numerator accumulator by `x` and the
denominator accumulator by `x + (-i)` (the source precomputes `neg_i`). -/
def lagrangeStep (i : ℕ) (acc : F × F) (x : ℕ) : F × F :=
  if x = i then acc
  else (acc.1 * (x : F), acc.2 * ((x : F) + -(i : F)))

/-- Embeds `Polynomial::lagrange_basis_at_0`.  The `HashSet` iteration order is
an arbitrary enumeration, modelled as a list argument; both accumulators start
at `1`, the loop is `lagrangeStep`, then the denominator is inverted and the
product returned. -/
def lagrange_basis_at_0 (x_coords : List ℕ) (i : ℕ) : F :=
  let p := x_coords.foldl (lagrangeStep i) (1, 1)
  p.1 * p.2⁻¹

/-- Naive evaluation `Σ_k coeff_k · x^k`, written from the spec's words for the
refinement claim (cross-check property) — to be compared with `eval`. -/
def naiveEval (coeffs : List F) (x : F) : F :=
  ∑ k ∈ Finset.range coeffs.length, coeffs.getD k 0 * x ^ k

instance : Fact (Nat.Prime 17) := ⟨by norm_num⟩

/-- The accumulator pair after the `lagrange_basis_at_0` loop: each skipped
element contributes the factor `1`, each kept element contributes `x` to the
numerator and `x - i` to the denominator. -/
theorem foldl_lagrangeStep (i : ℕ) (xs : List ℕ) (a b : F) :
    xs.foldl (lagrangeStep i) (a, b)
      = (a * (xs.map (fun x => if x = i then 1 else (x : F))).prod,
         b * (xs.map (fun x => if x = i then 1 else (x : F) - (i : F))).prod) := by
  induction xs generalizing a b with
  | nil => simp
  | cons y ys ih =>
    by_cases hy : y = i
    · simp [lagrangeStep, hy, ih]
    · simp [lagrangeStep, hy, ih, mul_assoc, sub_eq_add_neg]

/-- `lagrange_basis_at_0` as a pair of list products over the enumeration. -/
theorem lagrange_basis_at_0_eq (xs : List ℕ) (i : ℕ) :
    lagrange_basis_at_0 (F := F) xs i
      = (xs.map (fun x => if x = i then 1 else (x : F))).prod *
        ((xs.map (fun x => if x = i then 1 else (x : F) - (i : F))).prod)⁻¹ := by
  show (xs.foldl (lagrangeStep i) (1, 1)).1 * ((xs.foldl (lagrangeStep i) (1, 1)).2)⁻¹ = _
  rw [foldl_lagrangeStep]
  simp

/-- For a duplicate-free enumeration, `lagrange_basis_at_0` is the pair of
finite products over the coordinate set with `i` removed. -/
theorem lagrange_basis_at_0_eq_finset (xs : List ℕ) (i : ℕ) (hnd : xs.Nodup) :
    lagrange_basis_at_0 (F := F) xs i
      = (∏ x ∈ xs.toFinset.erase i, (x : F)) *
        (∏ x ∈ xs.toFinset.erase i, ((x : F) - (i : F)))⁻¹ := by
  have h1 : ∏ x ∈ xs.toFinset.erase i, (x : F)
      = ∏ x ∈ xs.toFinset, (if x = i then 1 else (x : F)) :=
    (Finset.prod_congr rfl fun x hx =>
      (if_neg (Finset.ne_of_mem_erase hx)).symm).trans
      (Finset.prod_erase _ (by simp))
  have h2 : ∏ x ∈ xs.toFinset.erase i, ((x : F) - (i : F))
      = ∏ x ∈ xs.toFinset, (if x = i then 1 else (x : F) - (i : F)) :=
    (Finset.prod_congr rfl fun x hx =>
      (if_neg (Finset.ne_of_mem_erase hx)).symm).trans
      (Finset.prod_erase _ (by simp))
  rw [lagrange_basis_at_0_eq, ← List.prod_toFinset _ hnd, ← List.prod_toFinset _ hnd,
    h1, h2]

/-- Claim C3: for a set of coordinates (a duplicate-free enumeration) and an
index `i`, `lagrange_basis_at_0` equals the product, over the coordinates
distinct from `i`, of `x / (x - i)` (as field elements), assuming no factor of
the denominator product is zero. -/
theorem lagrange_basis_at_0_spec (xs : List ℕ) (i : ℕ) (hnd : xs.Nodup)
    (hden : ∀ x ∈ xs, x ≠ i → (x : F) - (i : F) ≠ 0) :
    lagrange_basis_at_0 (F := F) xs i
      = ∏ x ∈ xs.toFinset.erase i, ((x : F) / ((x : F) - (i : F))) := by
  rw [lagrange_basis_at_0_eq_finset xs i hnd, Finset.prod_div_distrib, div_eq_mul_inv]

/-- Witness for claim C3, the spec's own scenario over `ZMod 17`:
`lagrange_basis_at_0 {1, 2} 1 = 2 / (2 - 1) = 2`. -/
theorem lagrange_basis_at_0_spec_witness :
    lagrange_basis_at_0 (F := ZMod 17) [1, 2] 1
      = (∏ x ∈ ([1, 2] : List ℕ).toFinset.erase 1,
          ((x : ZMod 17) / ((x : ZMod 17) - ((1 : ℕ) : ZMod 17))))
    ∧ lagrange_basis_at_0 (F := ZMod 17) [1, 2] 1 = 2 :=
  ⟨lagrange_basis_at_0_spec [1, 2] 1 (by decide) (by decide), by
    norm_num [lagrange_basis_at_0, lagrangeStep]⟩

/-- Claim C5: `lagrange_basis_at_0` is independent of the enumeration order of
the coordinate set — any two permutations of the same list of coordinates give
the identical field element. -/
theorem lagrange_basis_at_0_perm (xs ys : List ℕ) (i : ℕ) (h : xs.Perm ys) :
    lagrange_basis_at_0 (F := F) xs i = lagrange_basis_at_0 (F := F) ys i := by
  rw [lagrange_basis_at_0_eq, lagrange_basis_at_0_eq,
    (h.map _).prod_eq, (h.map _).prod_eq]

/-- Witness for claim C5: the two enumerations of `{1, 2}` agree over `ZMod 17`. -/
theorem lagrange_basis_at_0_perm_witness :
    lagrange_basis_at_0 (F := ZMod 17) [1, 2] 1
      = lagrange_basis_at_0 (F := ZMod 17) [2, 1] 1 :=
  lagrange_basis_at_0_perm [1, 2] [2, 1] 1 (by decide)

/-- Claim C9: if the coordinate set is empty, or its only element is `i`
itself, both accumulators remain `1` (the empty product) and
`lagrange_basis_at_0` returns the multiplicative identity `1`; no failure
occurs (the inverted denominator is `1`, not zero). -/
theorem lagrange_basis_at_0_degenerate (xs : List ℕ) (i : ℕ)
    (h : xs = [] ∨ xs = [i]) :
    xs.foldl (lagrangeStep (F := F) i) (1, 1) = (1, 1)
      ∧ lagrange_basis_at_0 (F := F) xs i = 1 := by
  rcases h with h | h <;> subst h <;>
    simp [lagrange_basis_at_0, lagrangeStep]

/-- Witness for claim C9: the singleton set `{4}` with `i = 4` over `ZMod 17`. -/
theorem lagrange_basis_at_0_degenerate_witness :
    ([4] : List ℕ).foldl (lagrangeStep (F := ZMod 17) 4) (1, 1) = (1, 1)
      ∧ lagrange_basis_at_0 (F := ZMod 17) [4] 4 = 1 :=
  lagrange_basis_at_0_degenerate [4] 4 (Or.inr rfl)

/-- Claim C10: if the coordinate set contains `0` and `i ≠ 0` (with every
denominator factor non-zero), `lagrange_basis_at_0` returns the additive
identity `0`, because the numerator acquires the factor `FieldElement::from(0)`. -/
theorem lagrange_basis_at_0_zero_coord (xs : List ℕ) (i : ℕ)
    (h0 : 0 ∈ xs) (hi : i ≠ 0)
    (hden : ∀ x ∈ xs, x ≠ i → (x : F) - (i : F) ≠ 0) :
    lagrange_basis_at_0 (F := F) xs i = 0 := by
  rw [lagrange_basis_at_0_eq]
  have hmem : (0 : F) ∈ xs.map (fun x => if x = i then 1 else (x : F)) := by
    refine List.mem_map.mpr ⟨0, h0, ?_⟩
    rw [if_neg (fun h => hi h.symm), Nat.cast_zero]
  rw [List.prod_eq_zero hmem, zero_mul]

/-- Witness for claim C10: coordinates `{0, 2}` with `i = 1` over `ZMod 17`. -/
theorem lagrange_basis_at_0_zero_coord_witness :
    lagrange_basis_at_0 (F := ZMod 17) [0, 2] 1 = 0 :=
  lagrange_basis_at_0_zero_coord [0, 2] 1 (by decide) (by decide) (by decide)

/-- Claim C6: `random(d)` (with the sampling collaborator modelled as an
oracle) has exactly `d + 1` coefficients, and `degree` reports `d`. -/
theorem random_degree (rng : ℕ → F) (d : ℕ) :
    (random rng d).length = d + 1 ∧ degree (random rng d) = d := by
  constructor <;> simp [random, fieldElementVectorRandom, degree]

/-- Claim C7: for a polynomial with at least one coefficient, evaluation at
the additive identity returns the constant term (coefficient at index 0). -/
theorem eval_zero (coeffs : List F) (h : 0 < coeffs.length) :
    eval coeffs 0 = some coeffs[0] := by
  simp [eval, List.getElem?_eq_getElem h]

/-- Witness for claim C7: `p(x) = 3 + 5x` over `ZMod 17` evaluated at `0`. -/
theorem eval_zero_witness :
    eval ([3, 5] : List (ZMod 17)) 0 = some 3 := by
  have h := eval_zero ([3, 5] : List (ZMod 17)) (by decide)
  simpa using h

/-- Horner's loop, folded over the descending index list `[j-1, ..., 0]`,
turns an accumulator `r` into `r · x^j` plus the lower-degree partial sum. -/
theorem foldl_horner (coeffs : List F) (x : F) (j : ℕ) (r : F) :
    ((List.range j).reverse).foldl (fun res i => res * x + coeffs.getD i 0) r
      = r * x ^ j + ∑ k ∈ Finset.range j, coeffs.getD k 0 * x ^ k := by
  induction j generalizing r with
  | zero => simp
  | succ j ih =>
    rw [List.range_succ, List.reverse_append]
    simp only [List.reverse_cons, List.reverse_nil, List.nil_append,
      List.singleton_append, List.foldl_cons]
    rw [ih, Finset.sum_range_succ]
    ring

/-- The naive sum at `x = 0` is the constant term. -/
theorem naiveEval_zero (coeffs : List F) (h : 0 < coeffs.length) :
    naiveEval coeffs 0 = coeffs.getD 0 0 := by
  unfold naiveEval
  rw [Finset.sum_eq_single 0]
  · simp
  · intro k _ hk0
    simp [zero_pow hk0]
  · intro h0
    exact absurd (Finset.mem_range.mpr h) h0

/-- Wherever `eval` completes (at `x = 0` on a non-empty coefficient list, or
anywhere with at least two coefficients), it agrees with the naive sum
`Σ_k coeff_k · x^k`.  The excluded case — one coefficient, non-zero `x` — is
where the source's loop bound `self.0.len()-2` underflows. -/
theorem eval_eq_naiveEval (coeffs : List F) (x : F)
    (h : 2 ≤ coeffs.length ∨ (x = 0 ∧ 1 ≤ coeffs.length)) :
    eval coeffs x = some (naiveEval coeffs x) := by
  by_cases hx : x = 0
  · subst hx
    have h1 : 0 < coeffs.length := by
      rcases h with h2 | ⟨_, h1⟩ <;> omega
    cases coeffs with
    | nil => simp at h1
    | cons a l =>
      rw [naiveEval_zero _ h1]
      simp [eval]
  · have h2 : 2 ≤ coeffs.length := by
      rcases h with h2 | ⟨hx0, _⟩
      · exact h2
      · exact absurd hx0 hx
    unfold eval
    rw [if_neg hx, if_neg (by omega)]
    congr 1
    rw [foldl_horner]
    unfold naiveEval
    obtain ⟨m, hm⟩ : ∃ m, coeffs.length = m + 1 := ⟨coeffs.length - 1, by omega⟩
    rw [hm]
    simp only [Nat.add_sub_cancel]
    rw [Finset.sum_range_succ]
    ring

/-- The partial sums of `getD` entries over the full index range give the list
sum. -/
theorem sum_range_getD (l : List F) :
    ∑ k ∈ Finset.range l.length, l.getD k 0 = l.sum := by
  induction l with
  | nil => simp
  | cons a t ih =>
    rw [List.length_cons, Finset.sum_range_succ']
    simp only [List.getD_cons_succ, List.getD_cons_zero, List.sum_cons, ih]
    exact add_comm _ _

/-- Wherever `eval` completes on `x = 1` (at least two coefficients), it
returns the sum of all coefficients. -/
theorem eval_one_eq_sum (coeffs : List F) (h : 2 ≤ coeffs.length) :
    eval coeffs 1 = some coeffs.sum := by
  rw [eval_eq_naiveEval coeffs 1 (Or.inl h)]
  congr 1
  unfold naiveEval
  simp only [one_pow, mul_one]
  exact sum_range_getD coeffs

/-- Claim C4 (code bug): a degree-0 polynomial (single coefficient, the
length-≥-1 invariant holds) evaluated at a non-zero point does not complete:
the `usize` loop bound `self.0.len()-2` underflows and the call panics,
modelled as `none`. -/
theorem eval_single_coeff_panics :
    eval ([3] : List (ZMod 17)) 2 = none
      ∧ 0 < ([3] : List (ZMod 17)).length := by
  constructor
  · decide
  · decide

/-- Claim C2 (code bug): on a single-coefficient polynomial at a non-zero
point, `eval` panics (= `none`) while the naive sum is the constant term, so
Horner-based `eval` does not equal the naive sum there. -/
theorem eval_naive_mismatch :
    eval ([5] : List (ZMod 17)) 1 ≠ some (naiveEval ([5] : List (ZMod 17)) 1)
      ∧ eval ([5] : List (ZMod 17)) 1 = none
      ∧ naiveEval ([5] : List (ZMod 17)) 1 = 5 := by
  refine ⟨?_, ?_, ?_⟩ <;> decide

/-- Claim C8 (code bug): in the degree-0 case, `eval` at the multiplicative
identity panics (= `none`) instead of returning the single coefficient, which
is the sum of all coefficients. -/
theorem eval_one_single_coeff_panics :
    eval ([7] : List (ZMod 17)) 1 = none
      ∧ ([7] : List (ZMod 17)).sum = 7 := by
  constructor <;> decide

/-- Claim C1 (code bug): for the degree `t = 0` instance `p = [3]` with the
coordinate set `{1}` (one distinct non-zero coordinate), the share `p.eval(1)`
panics (= `none`), so the reconstruction sum cannot be formed at all, while the
secret `p.eval(0)` is `3`. -/
theorem reconstruction_t_zero_panics :
    eval ([3] : List (ZMod 17)) ((1 : ℕ) : ZMod 17) = none
      ∧ eval ([3] : List (ZMod 17)) 0 = some 3 := by
  constructor <;> decide

/-- The secret-sharing reconstruction property, proved for every degree
`t ≥ 1` (the `t = 0` case panics inside `eval`, see the claim C1 theorem):
for a polynomial of degree `t` and a duplicate-free enumeration `xs` of `t+1`
non-zero coordinates whose field images are pairwise distinct, the shares
combined with the Lagrange coefficients recover the constant term. -/
theorem reconstruction (coeffs : List F) (t : ℕ) (ht : 1 ≤ t)
    (hlen : coeffs.length = t + 1)
    (xs : List ℕ) (hnd : xs.Nodup) (hcard : xs.length = t + 1)
    (hnz : ∀ x ∈ xs, x ≠ 0)
    (hinj : ∀ a ∈ xs, ∀ b ∈ xs, (a : F) = (b : F) → a = b) :
    ∑ i ∈ xs.toFinset, (eval coeffs ((i : ℕ) : F)).getD 0 * lagrange_basis_at_0 xs i
      = (eval coeffs 0).getD 0 := by
  set s : Finset ℕ := xs.toFinset with hs
  set v : ℕ → F := fun n => (n : F) with hv
  have hvs : Set.InjOn v s := by
    intro a ha b hb hab
    exact hinj a (List.mem_toFinset.mp ha) b (List.mem_toFinset.mp hb) hab
  have hs_card : s.card = t + 1 := by
    rw [hs, List.toFinset_card_of_nodup hnd, hcard]
  set P : Polynomial F :=
    ∑ k ∈ Finset.range coeffs.length, Polynomial.C (coeffs.getD k 0) * Polynomial.X ^ k
    with hP
  have hPdeg : P.degree < (s.card : WithBot ℕ) := by
    rw [hs_card]
    refine lt_of_le_of_lt (Polynomial.degree_sum_le _ _) ?_
    rw [Finset.sup_lt_iff (WithBot.bot_lt_coe _)]
    intro k hk
    refine lt_of_le_of_lt (Polynomial.degree_C_mul_X_pow_le k _) ?_
    have hk' : k < t + 1 := by
      have := Finset.mem_range.mp hk
      omega
    exact_mod_cast hk'
  have hP_eval : ∀ y : F, P.eval y = naiveEval coeffs y := by
    intro y
    rw [hP, naiveEval, Polynomial.eval_finset_sum]
    refine Finset.sum_congr rfl fun k _ => ?_
    simp [Polynomial.eval_mul, Polynomial.eval_pow]
  have key := Lagrange.eq_interpolate (f := P) hvs hPdeg
  have h0 : Polynomial.eval 0 P
      = ∑ i ∈ s, Polynomial.eval (v i) P * Polynomial.eval 0 (Lagrange.basis s v i) := by
    conv_lhs => rw [key]
    rw [Lagrange.interpolate_apply, Polynomial.eval_finset_sum]
    refine Finset.sum_congr rfl fun i _ => ?_
    rw [Polynomial.eval_mul, Polynomial.eval_C]
  have hbasis : ∀ i ∈ s,
      Polynomial.eval 0 (Lagrange.basis s v i) = lagrange_basis_at_0 (F := F) xs i := by
    intro i hi
    rw [Lagrange.basis, Polynomial.eval_prod, lagrange_basis_at_0_eq_finset xs i hnd,
      ← Finset.prod_inv_distrib, ← Finset.prod_mul_distrib]
    refine Finset.prod_congr rfl fun j hj => ?_
    rw [Lagrange.basisDivisor]
    simp only [Polynomial.eval_mul, Polynomial.eval_C, Polynomial.eval_sub,
      Polynomial.eval_X]
    rw [zero_sub, show v i - v j = -(v j - v i) by ring, inv_neg, neg_mul_neg]
    ring
  have hlen2 : 2 ≤ coeffs.length := by omega
  have hshare : ∀ i ∈ s, (eval coeffs (v i)).getD 0 = P.eval (v i) := by
    intro i _
    rw [eval_eq_naiveEval coeffs (v i) (Or.inl hlen2), hP_eval, Option.getD_some]
  have hsecret : (eval coeffs 0).getD 0 = P.eval 0 := by
    rw [eval_eq_naiveEval coeffs 0 (Or.inr ⟨rfl, by omega⟩), hP_eval, Option.getD_some]
  calc ∑ i ∈ s, (eval coeffs (v i)).getD 0 * lagrange_basis_at_0 xs i
      = ∑ i ∈ s, P.eval (v i) * Polynomial.eval 0 (Lagrange.basis s v i) :=
        Finset.sum_congr rfl fun i hi => by rw [hshare i hi, hbasis i hi]
    _ = P.eval 0 := h0.symm
    _ = (eval coeffs 0).getD 0 := hsecret.symm

/-- A concrete instance of `reconstruction` over `ZMod 17`: the spec's example
`p(x) = 3 + 5x` with coordinates `{1, 2}` recovers the secret `p(0) = 3`,
showing the reconstruction hypotheses are satisfiable. -/
theorem reconstruction_example :
    ∑ i ∈ ([1, 2] : List ℕ).toFinset,
        (eval ([3, 5] : List (ZMod 17)) ((i : ℕ) : ZMod 17)).getD 0
          * lagrange_basis_at_0 [1, 2] i
      = (eval ([3, 5] : List (ZMod 17)) 0).getD 0 :=
  reconstruction [3, 5] 1 (by decide) (by decide) [1, 2] (by decide) (by decide)
    (by decide) (by decide)

end SecretSharing
